import Mathlib

/-!
Verification development for the pool-based active-learning query strategies of the
repository: the graph-coverage selector (ProbCover, src/skactiveml/pool/_prob_cover.py)
and the cluster-typicality selector (TypiClust, src/skactiveml/pool/_typi_clust.py).

Shallow embedding conventions:
- the pool is indexed by Fin n; features enter only through the pairwise distance
  matrix dist (the Pairwise Geometry Provider of the spec);
- machine floats are modelled by rationals; the float NaN marker of a utility entry is
  the bottom of WithBot (ProbCover utilities are out-degree counts) or a none entry
  (TypiClust utilities); the float inf produced by a division by zero in _typicality is
  the top of WithTop;
- the clustering primitive is an oracle given as an input field (yCluster and
  clusterLabels), per section 6 of the spec;
- a query that raises is modelled by a none result.
-/

set_option autoImplicit false

namespace SkActiveML

/-! ### numpy argmax: first index attaining the maximum of a list -/

/-- The pair (first index of the maximum, maximum) of a list, none for the empty list. -/
def firstMaxP {α : Type} [LinearOrder α] : List α → Option (ℕ × α)
  | [] => none
  | x :: xs =>
    match firstMaxP xs with
    | none => some (0, x)
    | some (i, v) => if x < v then some (i + 1, v) else some (0, x)

/-- np.argmax: index of the first occurrence of the maximum. -/
def firstMaxL {α : Type} [LinearOrder α] (l : List α) : Option ℕ :=
  (firstMaxP l).map Prod.fst

/-! ### ProbCover (src/skactiveml/pool/_prob_cover.py) -/

variable {n : ℕ}

/-- Calibration adjacency: edges = distances < delta (strict, line 171). -/
def calibEdge (dist : Fin n → Fin n → ℚ) (δ : ℚ) (i j : Fin n) : Bool :=
  decide (dist i j < δ)

/-- Selection adjacency: edges = distances <= self.delta_max_ (inclusive, line 176). -/
def coverEdge (dist : Fin n → Fin n → ℚ) (δ : ℚ) (i j : Fin n) : Bool :=
  decide (dist i j ≤ δ)

/-- purity = 1 - (edges * is_impure).any(axis=1).mean() where
is_impure[i, j] = (y_cluster[i] != y_cluster[j]). -/
def purity (dist : Fin n → Fin n → ℚ) (yc : Fin n → ℕ) (δ : ℚ) : ℚ :=
  1 - (((List.finRange n).filter
        (fun i => decide (∃ j, calibEdge dist δ i j = true ∧ yc i ≠ yc j))).length : ℚ) / (n : ℚ)

/-- The calibration loop over deltas (lines 170-175): delta_max_ is assigned for every
delta whose purity is at least alpha, and the loop breaks at the first delta with
purity < alpha; acc is the current value of the delta_max_ attribute (none when the
attribute is not yet set). -/
def calibrate (dist : Fin n → Fin n → ℚ) (yc : Fin n → ℕ) (alpha : ℚ) :
    List ℚ → Option ℚ → Option ℚ
  | [], acc => acc
  | δ :: rest, acc =>
    if purity dist yc δ < alpha then acc
    else calibrate dist yc alpha rest (some δ)

/-- The inputs of one ProbCover.query call: the distance matrix of the pool, the mask of
already-labeled pool positions, the candidates argument (kept because the source accepts
it, though the line `_, _ = self._transform_candidates(...)` discards its result), the
deltas and alpha parameters, the fit_predict result of the clustering oracle on X, the
seed of the seeded random source, and the batch size. -/
structure PCInput (n : ℕ) where
  dist : Fin n → Fin n → ℚ
  labeled : Fin n → Bool
  candidates : Option (List (Fin n))
  deltas : List ℚ
  alpha : ℚ
  yCluster : Fin n → ℕ
  seed : ℕ
  batch : ℕ

/-- Lines 162-175: with exactly one delta it is accepted without calibration; otherwise a
cached delta_max_ attribute is reused, and an uncalibrated instance runs the loop. -/
def deltaMaxOf (inp : PCInput n) (cache : Option ℚ) : Option ℚ :=
  if inp.deltas.length = 1 then inp.deltas.head?
  else
    match cache with
    | some δ => some δ
    | none => calibrate inp.dist inp.yCluster inp.alpha inp.deltas none

/-- Row sum of a boolean adjacency row: edges[i].sum(). -/
def outDegree (edges : Fin n → Fin n → Bool) (i : Fin n) : ℕ :=
  ((List.finRange n).filter (fun j => edges i j)).length

/-- The largest utility entry (Bot when every entry is the NaN marker). -/
def maxUtil (u : Fin n → WithBot ℕ) : WithBot ℕ :=
  ((List.finRange n).map u).foldr max ⊥

/-- The ascending list of indices attaining the maximal utility. -/
def randTies (u : Fin n → WithBot ℕ) : List (Fin n) :=
  (List.finRange n).filter (fun i => decide (u i = maxUtil u))

/-- Modelled from the spec: skactiveml.utils.rand_argmax is not part of the given
sources. Per the spec it returns an index of maximal numeric utility (undefined NaN
entries, Bot here, are ignored) with ties broken uniformly by the seeded random source;
the seeded draw is modelled as the position (seed mod number-of-ties) in the ascending
list of tied indices, a fixed deterministic function of the seed, and none is returned
when every entry is undefined. -/
def rand_argmax (u : Fin n → WithBot ℕ) (seed : ℕ) : Option (Fin n) :=
  if maxUtil u = ⊥ then none
  else (randTies u)[seed % (randTies u).length]?

/-- is_covered of one round (line 182): a column j is covered when some non-candidate
row i has an edge to it. -/
def pcCovered (isCand : Fin n → Bool) (edges : Fin n → Fin n → Bool) (j : Fin n) : Bool :=
  decide (∃ i, isCand i = false ∧ edges i j = true)

/-- edges[:, is_covered] = False (line 183): the incoming edges of covered columns are
cleared; the mutation is persistent across rounds. -/
def pcEdges2 (isCand : Fin n → Bool) (edges : Fin n → Fin n → Bool) :
    Fin n → Fin n → Bool :=
  fun i j => edges i j && ! pcCovered isCand edges j

/-- The utility row of one round (lines 179 and 185): NaN (Bot) outside the candidate
mask, the out-degree in the thinned graph on the candidate mask. -/
def pcUtil (isCand : Fin n → Bool) (edges : Fin n → Fin n → Bool) (i : Fin n) :
    WithBot ℕ :=
  if isCand i then ((outDegree (pcEdges2 isCand edges) i : ℕ) : WithBot ℕ) else ⊥

/-- The greedy selection loop (lines 180-188). Each round recomputes is_covered from the
current candidate mask, clears the incoming edges of covered columns, scores every
candidate by its remaining out-degree, queries rand_argmax, and removes the pick from
the candidate mask. The utility rows are kept as functions; Bot is the NaN fill value. -/
def pcLoop : (seed : ℕ) → (isCand : Fin n → Bool) → (edges : Fin n → Fin n → Bool) →
    (B : ℕ) → Option (List (Fin n) × List (Fin n → WithBot ℕ))
  | _, _, _, 0 => some ([], [])
  | seed, isCand, edges, B + 1 =>
    match rand_argmax (pcUtil isCand edges) seed with
    | none => none
    | some idx =>
      match pcLoop (seed + 1) (Function.update isCand idx false) (pcEdges2 isCand edges) B with
      | none => none
      | some (picks, rows) => some (idx :: picks, pcUtil isCand edges :: rows)

/-- ProbCover.query. The pair holds (the returned value, the delta_max_ attribute after
the call); the first component is none when the call raises (parameter validation, or
the AttributeError of line 176 reached when the loop never assigned delta_max_). The
utility rows are materialised as lists over the pool positions. -/
def ProbCover.query (inp : PCInput n) (cache : Option ℚ) :
    Option (List (Fin n) × List (List (WithBot ℕ))) × Option ℚ :=
  if ¬ (0 < inp.alpha ∧ inp.alpha < 1) then (none, cache)
  else if inp.deltas.any (fun δ => decide (δ ≤ 0)) then (none, cache)
  else
    match deltaMaxOf inp cache with
    | none => (none, cache)
    | some δ =>
      match pcLoop inp.seed (fun i => ! inp.labeled i) (coverEdge inp.dist δ) inp.batch with
      | none => (none, some δ)
      | some (picks, rows) =>
        (some (picks, rows.map (fun r => (List.finRange n).map r)), some δ)

/-- Number of candidates of a mask. -/
def candCount (isCand : Fin n → Bool) : ℕ :=
  (Finset.univ.filter (fun i => isCand i = true)).card

/-! ### TypiClust (src/skactiveml/pool/_typi_clust.py) -/

/-- The inputs of one TypiClust.query call: the distance matrix of the pool features,
the mask of already-labeled pool positions, the candidates argument (none = the
unlabeled samples, or an explicit list of pool indices; candidates given directly as
features are not modelled), the neighbor count k, the batch size, and the fit_predict
result of the clustering oracle on X_for_cluster = concat(X_cand, X[selected_samples])
(a label for every cluster-space position). -/
structure TCInput (n : ℕ) where
  dist : Fin n → Fin n → ℚ
  labeled : Fin n → Bool
  candidates : Option (List (Fin n))
  k : ℕ
  batch : ℕ
  clusterLabels : ℕ → ℕ

/-- The mapping from candidate positions to pool positions produced by
_transform_candidates: the unlabeled pool positions in ascending order when candidates
is None, the given index list otherwise. -/
def mappingOf (inp : TCInput n) : List (Fin n) :=
  match inp.candidates with
  | none => (List.finRange n).filter (fun i => ! inp.labeled i)
  | some cand => cand

/-- selected_samples = labeled_indices(y): pool positions holding a label. -/
def selectedOf (inp : TCInput n) : List (Fin n) :=
  (List.finRange n).filter (fun i => inp.labeled i)

/-- The pool position of each cluster-space position: X_for_cluster is the
concatenation of X_cand and X[selected_samples]. -/
def csList (inp : TCInput n) : List (Fin n) := mappingOf inp ++ selectedOf inp

/-- The number of cluster-space positions. -/
def mOf (inp : TCInput n) : ℕ := (csList inp).length

/-- n_clusters = len(selected_samples) + batch_size. -/
def KOf (inp : TCInput n) : ℕ := (selectedOf inp).length + inp.batch

/-- X[s] for a cluster-space position s: the source indexes the pool array X directly
with cluster-space positions (see _typicality), which presumes s < n; an out-of-range
pair (which numpy would reject) is mapped to distance 0 and never arises in the
theorems below. -/
def distAt (dist : Fin n → Fin n → ℚ) (s q : ℕ) : ℚ :=
  if h : s < n ∧ q < n then dist ⟨s, h.1⟩ ⟨q, h.2⟩ else 0

/-- The sum of the k2+1 smallest distances from position p to the positions of subset
(sklearn kneighbors with n_neighbors = k2+1 fitted on X[subset], queried at X[p] for
p in subset: the k2+1 nearest include p itself at distance zero). -/
def knnSumAt (dist : Fin n → Fin n → ℚ) (subset : List ℕ) (k2 : ℕ) (p : ℕ) : ℚ :=
  ((Multiset.sort (α := ℚ) (· ≤ ·)
      (↑(subset.map (fun q => distAt dist p q)))).take (k2 + 1)).sum

/-- _typicality(X, uncovered_samples_mapping, k) (lines 214-228), as the vector indexed
by position p: 1 on a singleton subset; otherwise, with k clamped to (subset size - 1),
position p of the subset receives ((1/k) * knn)^(-1) = k / knn where knn sums the k+1
smallest distances from X[p] into X[subset]; a zero knn sum (the float division by zero
producing inf) is modelled as Top; positions outside the subset keep the zero fill. -/
def typicality (dist : Fin n → Fin n → ℚ) (subset : List ℕ) (k : ℕ) (p : ℕ) :
    WithTop ℚ :=
  if p ∈ subset then
    if subset.length = 1 then 1
    else
      if knnSumAt dist subset (min (subset.length - 1) k) p = 0 then ⊤
      else (((min (subset.length - 1) k : ℕ) : ℚ) /
        knnSumAt dist subset (min (subset.length - 1) k) p : ℚ)
  else 0

/-- The cluster-space positions carrying cluster label cid (the list comprehension of
lines 173-177). -/
def tcSubset (cl : ℕ → ℕ) (m cid : ℕ) : List ℕ :=
  (List.range m).filter (fun s => decide (cl s = cid))

/-- One utility row (lines 179-180): utilities[i, mapping] = typicality[arange(len(
mapping))], then the positions picked in strictly earlier rounds of this call are reset
to NaN; every other position keeps the NaN fill. -/
def tcRow {n : ℕ} (typ : ℕ → WithTop ℚ) (mapping picked : List (Fin n)) (j : Fin n) :
    Option (WithTop ℚ) :=
  if j ∈ picked then none
  else if j ∈ mapping then some (typ (mapping.indexOf j))
  else none

/-- Count of cluster-space positions labeled c (np.unique(..., return_counts=True)
read off at identifier c; faithful when every identifier below K occurs, the situation
of the theorems below). -/
def clusterCount (cl : ℕ → ℕ) (m c : ℕ) : ℕ := (tcSubset cl m c).length

/-- covered_cluster: the cluster identifiers of the selected (already labeled) points,
which occupy the cluster-space positions from len(mapping) to m-1. -/
def coveredB (inp : TCInput n) (c : ℕ) : Bool :=
  decide (∃ s ∈ List.range (mOf inp),
    (mappingOf inp).length ≤ s ∧ inp.clusterLabels s = c)

/-- cluster_sizes after the covered identifiers are forced to zero (lines 148-157). -/
def initSizes (inp : TCInput n) (c : ℕ) : ℕ :=
  if coveredB inp c then 0 else clusterCount inp.clusterLabels (mOf inp) c

/-- The selection loop (lines 171-185): each round takes the identifier with the
largest remaining size (np.argmax, first maximum), computes the typicality vector of
that cluster, records the utility row, picks the position with maximal typicality
(np.argmax over the full length-n vector), maps it through mapping (an out-of-range
position, an IndexError in the source, gives none), appends the pick and zeroes the
cluster. -/
def tcLoop (dist : Fin n → Fin n → ℚ) (cl : ℕ → ℕ) (k : ℕ) (mapping : List (Fin n))
    (m K : ℕ) : (B : ℕ) → (sizes : ℕ → ℕ) → (picked : List (Fin n)) →
    Option (List (Fin n) × List (Fin n → Option (WithTop ℚ)))
  | 0, _, _ => some ([], [])
  | B + 1, sizes, picked =>
    match firstMaxL ((List.range K).map sizes) with
    | none => none
    | some cid =>
      match firstMaxL ((List.range n).map (typicality dist (tcSubset cl m cid) k)) with
      | none => none
      | some slot =>
        match mapping[slot]? with
        | none => none
        | some j0 =>
          match tcLoop dist cl k mapping m K B (Function.update sizes cid 0)
              (picked ++ [j0]) with
          | none => none
          | some (picks, rows) =>
            some (j0 :: picks,
              tcRow (typicality dist (tcSubset cl m cid) k) mapping picked :: rows)

/-- TypiClust.query for candidates given as indices or None. The utility rows are
materialised over the pool positions, with the already-labeled columns overwritten by
NaN at the end (line 188; with index or None candidates the utility width always
equals the pool size). -/
def TypiClust.query (inp : TCInput n) :
    Option (List (Fin n) × List (List (Option (WithTop ℚ)))) :=
  match tcLoop inp.dist inp.clusterLabels inp.k (mappingOf inp) (mOf inp) (KOf inp)
      inp.batch (initSizes inp) [] with
  | none => none
  | some (picks, rows) =>
    some (picks, rows.map (fun r => (List.finRange n).map
      (fun j => if inp.labeled j then none else r j)))

def posCount (K : ℕ) (sizes : ℕ → ℕ) : ℕ :=
  ((Finset.range K).filter (fun c => 0 < sizes c)).card

/-! ### Claim-side definitions (formalising the wording of the spec) -/

/-- The calibration result as the spec words it: scan the candidates in order,
recording every delta whose purity is at least alpha as the current best and stopping
at the first failure — that is, the last element of the longest prefix all of whose
purities pass (none when already the first candidate fails). -/
def calibrateSpec (dist : Fin n → Fin n → ℚ) (yc : Fin n → ℕ) (alpha : ℚ)
    (deltas : List ℚ) : Option ℚ :=
  (deltas.takeWhile (fun δ => decide (alpha ≤ purity dist yc δ))).getLast?

/-- The typicality the spec describes (section 4.3) for the list of pool points of a
cluster: the score of member x is the inverse mean distance from x to its k nearest
neighbors among the other members, with k clamped to (size - 1), 1 for a singleton
cluster, and 0 outside the cluster; a zero mean is kept as Top, mirroring the float
infinity. -/
def typicalitySpec (dist : Fin n → Fin n → ℚ) (members : List (Fin n)) (k : ℕ)
    (x : Fin n) : WithTop ℚ :=
  if x ∈ members then
    if members.length = 1 then 1
    else
      if (((Multiset.sort (α := ℚ) (· ≤ ·)
          (↑((members.erase x).map (fun q => dist x q)))).take
            (min (members.length - 1) k)).sum) = 0 then ⊤
      else (((min (members.length - 1) k : ℕ) : ℚ) /
        (((Multiset.sort (α := ℚ) (· ≤ ·)
          (↑((members.erase x).map (fun q => dist x q)))).take
            (min (members.length - 1) k)).sum) : ℚ)
  else 0

/-- The claim notion of a covered cluster: identifier c belongs to a cluster containing
an already-labeled point when some cluster-space position holding a labeled pool point
carries label c (csList lists the pool position of every cluster-space position). -/
def coveredCluster (inp : TCInput n) (c : ℕ) : Prop :=
  ∃ s, s < mOf inp ∧ (∃ j, (csList inp)[s]? = some j ∧ inp.labeled j = true) ∧
    inp.clusterLabels s = c

/-! ### Concrete inputs used by the witnesses and counterexamples -/

/-- Three unlabeled points at mutual distances 1/2, 5, 9/2 with alternating
pseudo-labels: already the smallest delta candidate gives purity 1/3 < alpha. -/
def exC1 : PCInput 3 where
  dist := ![![0, 1/2, 5], ![1/2, 0, 9/2], ![5, 9/2, 0]]
  labeled := ![false, false, false]
  candidates := none
  deltas := [1, 2]
  alpha := 9/10
  yCluster := ![0, 1, 0]
  seed := 0
  batch := 1

/-- Points on a line at 0, 1, 3 with the last one labeled; a single delta candidate. -/
def exPC : PCInput 3 where
  dist := ![![0, 1, 3], ![1, 0, 2], ![3, 2, 0]]
  labeled := ![false, false, true]
  candidates := none
  deltas := [2]
  alpha := 1/2
  yCluster := ![0, 0, 1]
  seed := 0
  batch := 1

/-- As exPC but with three ascending delta candidates: 1 and 2 keep purity 1, while 6
merges the pseudo-clusters and drops purity to 0. -/
def exPC2 : PCInput 3 where
  dist := ![![0, 1, 3], ![1, 0, 2], ![3, 2, 0]]
  labeled := ![false, false, true]
  candidates := none
  deltas := [1, 2, 6]
  alpha := 1/2
  yCluster := ![0, 0, 1]
  seed := 0
  batch := 1

/-- Four unlabeled points on a line at 0, 1, 3/2, 2 with an explicit candidate list
containing only pool position 0; position 2 has the unique maximal out-degree at
radius 3/5. -/
def exC5 : PCInput 4 where
  dist := ![![0, 1, 3/2, 2], ![1, 0, 1/2, 1], ![3/2, 1/2, 0, 1/2], ![2, 1, 1/2, 0]]
  labeled := ![false, false, false, false]
  candidates := some [0]
  deltas := [3/5]
  alpha := 1/2
  yCluster := ![0, 0, 0, 0]
  seed := 0
  batch := 1

/-- Three unlabeled points at 0, 1, 3 in one single cluster. -/
def exTC : TCInput 3 where
  dist := ![![0, 1, 3], ![1, 0, 2], ![3, 2, 0]]
  labeled := ![false, false, false]
  candidates := none
  k := 1
  batch := 1
  clusterLabels := fun _ => 0

/-- Pool points at 0, 10, 11 with the first one labeled: the cluster-space order is
(pool 1, pool 2, pool 0), so the cluster of candidate positions 0 and 1 holds the pool
points 10 and 11 while _typicality reads the pool rows 0 and 10. -/
def ex3 : TCInput 3 where
  dist := ![![0, 10, 11], ![10, 0, 1], ![11, 1, 0]]
  labeled := ![true, false, false]
  candidates := none
  k := 1
  batch := 1
  clusterLabels := fun s => if s < 2 then 0 else 1

/-- Pool of three points with pool position 2 labeled and an explicit candidate list
[0]: pool position 1 is unlabeled, never selected, and not a candidate, so its utility
column stays NaN. -/
def ex8 : TCInput 3 where
  dist := ![![0, 1, 2], ![1, 0, 1], ![2, 1, 0]]
  labeled := ![false, false, true]
  candidates := some [0]
  k := 1
  batch := 1
  clusterLabels := fun s => if s = 0 then 0 else 1

/-! ### Theorems -/

theorem firstMaxP_eq_none {α : Type} [LinearOrder α] {l : List α} :
    firstMaxP l = none ↔ l = [] := by
  cases l with
  | nil => simp [firstMaxP]
  | cons x xs =>
    constructor
    · intro h
      cases hx : firstMaxP xs with
      | none => simp [firstMaxP, hx] at h
      | some p =>
        simp only [firstMaxP, hx] at h
        by_cases hlt : x < p.2 <;> simp [hlt] at h
    · intro h; exact absurd h (by simp)

theorem firstMaxP_get {α : Type} [LinearOrder α] :
    ∀ {l : List α} {i : ℕ} {v : α}, firstMaxP l = some (i, v) → l[i]? = some v := by
  intro l
  induction l with
  | nil => intro i v h; simp [firstMaxP] at h
  | cons x xs ih =>
    intro i v h
    cases hx : firstMaxP xs with
    | none =>
      simp only [firstMaxP, hx] at h
      simp only [Option.some.injEq, Prod.mk.injEq] at h
      obtain ⟨hi, hv⟩ := h
      subst hv
      simp [← hi]
    | some p =>
      simp only [firstMaxP, hx] at h
      by_cases hlt : x < p.2
      · rw [if_pos hlt] at h
        simp only [Option.some.injEq, Prod.mk.injEq] at h
        obtain ⟨hi, hv⟩ := h
        subst hv
        have hxs : firstMaxP xs = some (p.1, p.2) := by rw [hx]
        have := ih hxs
        rw [← hi]
        simpa using this
      · rw [if_neg hlt] at h
        simp only [Option.some.injEq, Prod.mk.injEq] at h
        obtain ⟨hi, hv⟩ := h
        subst hv
        simp [← hi]

theorem firstMaxP_max {α : Type} [LinearOrder α] :
    ∀ {l : List α} {i : ℕ} {v : α}, firstMaxP l = some (i, v) → ∀ w ∈ l, w ≤ v := by
  intro l
  induction l with
  | nil => intro i v h; simp [firstMaxP] at h
  | cons x xs ih =>
    intro i v h w hw
    cases hx : firstMaxP xs with
    | none =>
      simp only [firstMaxP, hx] at h
      simp only [Option.some.injEq, Prod.mk.injEq] at h
      have hxs : xs = [] := firstMaxP_eq_none.mp hx
      subst hxs
      simp only [List.mem_singleton] at hw
      exact le_of_eq (hw.trans h.2)
    | some p =>
      simp only [firstMaxP, hx] at h
      have hxs : firstMaxP xs = some (p.1, p.2) := by rw [hx]
      rcases List.mem_cons.mp hw with hwx | hwxs
      · by_cases hlt : x < p.2
        · rw [if_pos hlt] at h
          simp only [Option.some.injEq, Prod.mk.injEq] at h
          exact le_of_lt (h.2 ▸ (hwx ▸ hlt))
        · rw [if_neg hlt] at h
          simp only [Option.some.injEq, Prod.mk.injEq] at h
          exact le_of_eq (hwx.trans h.2)
      · have hle : w ≤ p.2 := ih hxs w hwxs
        by_cases hlt : x < p.2
        · rw [if_pos hlt] at h
          simp only [Option.some.injEq, Prod.mk.injEq] at h
          exact h.2 ▸ hle
        · rw [if_neg hlt] at h
          simp only [Option.some.injEq, Prod.mk.injEq] at h
          exact le_trans hle (le_trans (not_lt.mp hlt) (le_of_eq h.2))

theorem firstMaxL_get {α : Type} [LinearOrder α] {l : List α} {i : ℕ} :
    firstMaxL l = some i → ∃ v, l[i]? = some v ∧ ∀ w ∈ l, w ≤ v := by
  intro h
  rcases Option.map_eq_some'.mp h with ⟨⟨i0, v⟩, hp, hi⟩
  subst hi
  exact ⟨v, firstMaxP_get hp, firstMaxP_max hp⟩

theorem firstMaxL_isSome {α : Type} [LinearOrder α] {l : List α} (h : l ≠ []) :
    (firstMaxL l).isSome := by
  cases hp : firstMaxP l with
  | none => exact absurd (firstMaxP_eq_none.mp hp) h
  | some p => simp [firstMaxL, hp]

/-! ### Lemmas about rand_argmax and the ProbCover selection loop -/

theorem le_foldr_max {l : List (WithBot ℕ)} {w : WithBot ℕ} (hw : w ∈ l) :
    w ≤ l.foldr max ⊥ := by
  induction l with
  | nil => simp at hw
  | cons x xs ih =>
    rcases List.mem_cons.mp hw with h | h
    · subst h; exact le_max_left _ _
    · exact le_trans (ih h) (le_max_right _ _)

theorem foldr_max_mem (l : List (WithBot ℕ)) :
    l.foldr max ⊥ = ⊥ ∨ l.foldr max ⊥ ∈ l := by
  induction l with
  | nil => simp
  | cons x xs ih =>
    rcases le_total x (xs.foldr max ⊥) with h | h
    · rw [List.foldr_cons, max_eq_right h]
      rcases ih with h0 | h0
      · exact Or.inl h0
      · exact Or.inr (List.mem_cons_of_mem _ h0)
    · rw [List.foldr_cons, max_eq_left h]
      exact Or.inr (List.mem_cons_self _ _)

theorem le_maxUtil {u : Fin n → WithBot ℕ} (i : Fin n) : u i ≤ maxUtil u :=
  le_foldr_max (List.mem_map_of_mem u (List.mem_finRange i))

theorem rand_argmax_mem {u : Fin n → WithBot ℕ} {seed : ℕ} {p : Fin n}
    (h : rand_argmax u seed = some p) : u p ≠ ⊥ ∧ ∀ i, u i ≤ u p := by
  unfold rand_argmax at h
  by_cases hb : maxUtil u = ⊥
  · rw [if_pos hb] at h; exact absurd h (by simp)
  · rw [if_neg hb] at h
    have hmem : p ∈ randTies u := List.getElem?_mem h
    have hup : u p = maxUtil u := by
      unfold randTies at hmem
      exact of_decide_eq_true (List.mem_filter.mp hmem).2
    exact ⟨by rw [hup]; exact hb, fun i => by rw [hup]; exact le_maxUtil i⟩

theorem rand_argmax_isSome {u : Fin n → WithBot ℕ} (seed : ℕ) {i0 : Fin n}
    (h0 : u i0 ≠ ⊥) : ∃ p, rand_argmax u seed = some p := by
  have hvb : maxUtil u ≠ ⊥ := by
    intro hb
    exact h0 (le_bot_iff.mp (hb ▸ le_maxUtil i0))
  have hwit : ∃ i, u i = maxUtil u := by
    rcases foldr_max_mem ((List.finRange n).map u) with h | h
    · exact absurd h hvb
    · obtain ⟨i, _, hi⟩ := List.mem_map.mp h
      exact ⟨i, hi⟩
  obtain ⟨iw, hiw⟩ := hwit
  have hmemw : iw ∈ randTies u :=
    List.mem_filter.mpr ⟨List.mem_finRange iw, decide_eq_true hiw⟩
  have hlen : 0 < (randTies u).length := List.length_pos.mpr (List.ne_nil_of_mem hmemw)
  have hmod : seed % (randTies u).length < (randTies u).length := Nat.mod_lt _ hlen
  refine ⟨(randTies u).get ⟨seed % (randTies u).length, hmod⟩, ?_⟩
  unfold rand_argmax
  rw [if_neg hvb, List.getElem?_eq_getElem hmod]
  rfl

theorem candCount_update {isCand : Fin n → Bool} {idx : Fin n} (h : isCand idx = true) :
    candCount (Function.update isCand idx false) = candCount isCand - 1 := by
  unfold candCount
  have : Finset.univ.filter (fun i => Function.update isCand idx false i = true) =
      (Finset.univ.filter (fun i => isCand i = true)).erase idx := by
    ext i
    by_cases hi : i = idx
    · subst hi; simp [Function.update_same]
    · simp [Function.update_noteq hi, hi]
  rw [this, Finset.card_erase_of_mem (by simp [h])]

theorem candCount_pos_iff {isCand : Fin n → Bool} :
    0 < candCount isCand ↔ ∃ i, isCand i = true := by
  unfold candCount
  rw [Finset.card_pos]
  constructor
  · rintro ⟨i, hi⟩; exact ⟨i, (Finset.mem_filter.mp hi).2⟩
  · rintro ⟨i, hi⟩; exact ⟨i, Finset.mem_filter.mpr ⟨Finset.mem_univ i, hi⟩⟩

theorem pcUtil_eq_bot_iff {isCand : Fin n → Bool} {edges : Fin n → Fin n → Bool}
    {j : Fin n} : pcUtil isCand edges j = ⊥ ↔ isCand j = false := by
  unfold pcUtil
  cases hj : isCand j
  · simp
  · simp [WithBot.coe_ne_bot]

/-- The invariant of the ProbCover greedy loop: with at least B candidates it returns B
pairwise distinct picks, all candidates, and the NaN pattern of utility row b is
exactly (non-candidate at entry) or (picked in an earlier round). -/
theorem pcLoop_spec : ∀ (B : ℕ) (seed : ℕ) (isCand : Fin n → Bool)
    (edges : Fin n → Fin n → Bool), B ≤ candCount isCand →
    ∃ picks rows, pcLoop seed isCand edges B = some (picks, rows) ∧
      picks.length = B ∧ rows.length = B ∧ picks.Nodup ∧
      (∀ j ∈ picks, isCand j = true) ∧
      (∀ b r, rows[b]? = some r → ∀ j : Fin n,
        (r j = ⊥ ↔ (isCand j = false ∨ j ∈ picks.take b))) := by
  intro B
  induction B with
  | zero =>
    intro seed isCand edges _
    exact ⟨[], [], rfl, rfl, rfl, List.nodup_nil, by simp, by simp⟩
  | succ B ih =>
    intro seed isCand edges hB
    have hpos : 0 < candCount isCand := lt_of_lt_of_le (Nat.succ_pos B) hB
    obtain ⟨i0, hi0⟩ := candCount_pos_iff.mp hpos
    have hu0 : pcUtil isCand edges i0 ≠ ⊥ := by
      rw [Ne, pcUtil_eq_bot_iff, hi0]; simp
    obtain ⟨p, hp⟩ := rand_argmax_isSome seed hu0
    have hpprop := rand_argmax_mem hp
    have hpc : isCand p = true := by
      rcases hpprop with ⟨hne, _⟩
      by_contra hc
      exact hne (pcUtil_eq_bot_iff.mpr (by simpa using hc))
    have hcc : B ≤ candCount (Function.update isCand p false) := by
      rw [candCount_update hpc]
      omega
    obtain ⟨picks, rows, heq, hlen, hrlen, hnd, hcand, hrows⟩ :=
      ih (seed + 1) (Function.update isCand p false) (pcEdges2 isCand edges) hcc
    refine ⟨p :: picks, pcUtil isCand edges :: rows, ?_, by simp [hlen], by simp [hrlen],
      ?_, ?_, ?_⟩
    · rw [pcLoop, hp]
      show (match pcLoop (seed + 1) (Function.update isCand p false)
          (pcEdges2 isCand edges) B with
        | none => none
        | some (picks, rows) => some (p :: picks, pcUtil isCand edges :: rows)) =
        some (p :: picks, pcUtil isCand edges :: rows)
      rw [heq]
    · refine List.nodup_cons.mpr ⟨?_, hnd⟩
      intro hmem
      have := hcand p hmem
      rw [Function.update_same] at this
      exact Bool.false_ne_true this
    · intro j hj
      rcases List.mem_cons.mp hj with hj | hj
      · subst hj; exact hpc
      · have := hcand j hj
        by_cases hjp : j = p
        · subst hjp; rw [Function.update_same] at this; exact absurd this Bool.false_ne_true
        · rwa [Function.update_noteq hjp] at this
    · intro b r hr j
      cases b with
      | zero =>
        simp only [List.getElem?_cons_zero, Option.some.injEq] at hr
        subst hr
        simp only [List.take_zero, List.not_mem_nil, or_false]
        exact pcUtil_eq_bot_iff
      | succ b =>
        simp only [List.getElem?_cons_succ] at hr
        have := hrows b r hr j
        rw [this]
        simp only [List.take_succ_cons, List.mem_cons]
        constructor
        · rintro (hcf | hmem)
          · by_cases hjp : j = p
            · exact Or.inr (Or.inl hjp)
            · rw [Function.update_noteq hjp] at hcf
              exact Or.inl hcf
          · exact Or.inr (Or.inr hmem)
        · rintro (hcf | hjp | hmem)
          · left
            by_cases hjp : j = p
            · subst hjp; rw [Function.update_same]
            · rwa [Function.update_noteq hjp]
          · subst hjp; left; rw [Function.update_same]
          · exact Or.inr hmem

/-! ### Characterisation of the calibration loop -/

theorem getLast?_cons_or {α : Type} (a : α) (l : List α) :
    (a :: l).getLast? = l.getLast?.or (some a) := by
  induction l generalizing a with
  | nil => rfl
  | cons b t ih =>
    rw [List.getLast?_cons_cons, ih b, Option.or_assoc]
    rfl

/-- The delta loop computes the last element of the longest prefix of deltas whose every
element has purity at least alpha (falling back to the incoming attribute value when
that prefix is empty). -/
theorem calibrate_eq (dist : Fin n → Fin n → ℚ) (yc : Fin n → ℕ) (alpha : ℚ) :
    ∀ (l : List ℚ) (acc : Option ℚ),
    calibrate dist yc alpha l acc =
      ((l.takeWhile (fun δ => decide (alpha ≤ purity dist yc δ))).getLast?).or acc := by
  intro l
  induction l with
  | nil => intro acc; rfl
  | cons δ rest ih =>
    intro acc
    rw [calibrate, List.takeWhile_cons]
    by_cases hδ : purity dist yc δ < alpha
    · rw [if_pos hδ]
      have hdec : (decide (alpha ≤ purity dist yc δ)) = false := by
        simp [not_le.mpr hδ]
      rw [hdec]
      rfl
    · rw [if_neg hδ]
      have hdec : (decide (alpha ≤ purity dist yc δ)) = true := by
        simp [not_lt.mp hδ]
      rw [hdec, if_pos rfl, ih (some δ), getLast?_cons_or, Option.or_assoc]
      rfl

theorem takeWhile_imp_isPref {α : Type} {p q : α → Bool}
    (himp : ∀ a, q a = true → p a = true) :
    ∀ l : List α, ∃ t, l.takeWhile q ++ t = l.takeWhile p := by
  intro l
  induction l with
  | nil => exact ⟨[], rfl⟩
  | cons a rest ih =>
    by_cases hq : q a = true
    · obtain ⟨t, ht⟩ := ih
      refine ⟨t, ?_⟩
      rw [List.takeWhile_cons, List.takeWhile_cons, hq, himp a hq]
      simpa using ht
    · refine ⟨(a :: rest).takeWhile p, ?_⟩
      rw [List.takeWhile_cons, Bool.of_not_eq_true hq]
      simp

theorem sorted_le_getLast : ∀ {l : List ℚ}, l.Sorted (· ≤ ·) →
    ∀ {y : ℚ}, l.getLast? = some y → ∀ x ∈ l, x ≤ y := by
  intro l
  induction l with
  | nil => intro _ y hy; simp at hy
  | cons b t ih =>
    intro hs y hy x hx
    rw [getLast?_cons_or] at hy
    cases ht : t.getLast? with
    | none =>
      rw [ht, Option.none_or] at hy
      have htn : t = [] := List.getLast?_eq_none_iff.mp ht
      subst htn
      simp only [List.mem_singleton] at hx
      subst hx
      exact le_of_eq (Option.some.inj hy)
    | some z =>
      rw [ht, Option.or_some] at hy
      have hzy : z = y := Option.some.inj hy
      rcases List.mem_cons.mp hx with hxb | hxt
      · subst hxb
        have hz_mem : z ∈ t := List.mem_of_mem_getLast? (Option.mem_def.mpr ht)
        exact hzy ▸ (List.sorted_cons.mp hs).1 z hz_mem
      · exact ih (List.sorted_cons.mp hs).2 (hzy ▸ ht) x hxt

/-- A sorted-list prefix has a last element not exceeding the last element of the full
list. -/
theorem getLast?_le_of_isPref {l1 l2 : List ℚ} (hsort : l2.Sorted (· ≤ ·))
    (hpre : ∃ t, l1 ++ t = l2) {x y : ℚ}
    (hx : l1.getLast? = some x) (hy : l2.getLast? = some y) : x ≤ y := by
  have hxmem : x ∈ l1 := List.mem_of_mem_getLast? (Option.mem_def.mpr hx)
  obtain ⟨t, ht⟩ := hpre
  have hxl2 : x ∈ l2 := by
    rw [← ht]
    exact List.mem_append_left t hxmem
  exact sorted_le_getLast hsort hy x hxl2

/-! ### Lemmas about typicality and the TypiClust selection loop -/

theorem distAt_nonneg {dist : Fin n → Fin n → ℚ} (hd : ∀ i j, 0 ≤ dist i j) (s q : ℕ) :
    0 ≤ distAt dist s q := by
  unfold distAt
  split
  · exact hd _ _
  · exact le_refl 0

theorem knnSumAt_nonneg {dist : Fin n → Fin n → ℚ} (hd : ∀ i j, 0 ≤ dist i j)
    (subset : List ℕ) (k2 p : ℕ) : 0 ≤ knnSumAt dist subset k2 p := by
  unfold knnSumAt
  apply List.sum_nonneg
  intro x hx
  have hx2 := List.mem_of_mem_take hx
  rw [Multiset.mem_sort, Multiset.mem_coe] at hx2
  obtain ⟨q, _, hqx⟩ := List.mem_map.mp hx2
  exact hqx ▸ distAt_nonneg hd p q

theorem typicality_of_not_mem {dist : Fin n → Fin n → ℚ} {subset : List ℕ} {k p : ℕ}
    (h : p ∉ subset) : typicality dist subset k p = 0 := by
  unfold typicality
  rw [if_neg h]

theorem typicality_pos {dist : Fin n → Fin n → ℚ} {subset : List ℕ} {k p : ℕ}
    (hd : ∀ i j, 0 ≤ dist i j) (hk : 1 ≤ k) (hp : p ∈ subset) :
    0 < typicality dist subset k p := by
  unfold typicality
  rw [if_pos hp]
  by_cases h1 : subset.length = 1
  · rw [if_pos h1]
    exact zero_lt_one
  · rw [if_neg h1]
    by_cases h0 : knnSumAt dist subset (min (subset.length - 1) k) p = 0
    · rw [if_pos h0]
      exact lt_of_lt_of_le zero_lt_one le_top
    · rw [if_neg h0]
      rw [WithTop.coe_pos]
      apply div_pos
      · rw [Nat.cast_pos, lt_min_iff]
        have hlen : 1 ≤ subset.length := List.length_pos.mpr (List.ne_nil_of_mem hp)
        exact ⟨by omega, by omega⟩
      · exact lt_of_le_of_ne (knnSumAt_nonneg hd subset _ p) (Ne.symm h0)

theorem tcSubset_mem {cl : ℕ → ℕ} {m cid p : ℕ} (hp : p ∈ tcSubset cl m cid) :
    p < m ∧ cl p = cid := by
  unfold tcSubset at hp
  have h := List.mem_filter.mp hp
  exact ⟨List.mem_range.mp h.1, of_decide_eq_true h.2⟩

theorem tcSubset_mem_of {cl : ℕ → ℕ} {m cid p : ℕ} (h1 : p < m) (h2 : cl p = cid) :
    p ∈ tcSubset cl m cid :=
  List.mem_filter.mpr ⟨List.mem_range.mpr h1, decide_eq_true h2⟩

/-- np.argmax over a function tabulated on range M: the result is below M and attains
the maximum. -/
theorem range_map_argmax {α : Type} [LinearOrder α] {f : ℕ → α} {M i : ℕ}
    (h : firstMaxL ((List.range M).map f) = some i) :
    i < M ∧ ∀ c, c < M → f c ≤ f i := by
  obtain ⟨v, hv, hmax⟩ := firstMaxL_get h
  have hi : i < M := by
    by_contra hge
    rw [List.getElem?_eq_none (by simpa using le_of_not_lt hge)] at hv
    exact absurd hv (by simp)
  have hvf : v = f i := by
    rw [List.getElem?_eq_getElem (by simpa using hi)] at hv
    have h2 := Option.some.inj hv
    simpa using h2.symm
  subst hvf
  exact ⟨hi, fun c hc => hmax (f c) (List.mem_map_of_mem f (List.mem_range.mpr hc))⟩

theorem range_map_ne_nil {α : Type} {f : ℕ → α} {M : ℕ} (hM : 0 < M) :
    (List.range M).map f ≠ [] := by
  intro h
  have := congrArg List.length h
  simp at this
  omega

/-- Number of cluster identifiers below K with a positive remaining size. -/
theorem posCount_update {K : ℕ} {sizes : ℕ → ℕ} {cid : ℕ} (hc : cid < K)
    (hpos : 0 < sizes cid) :
    posCount K (Function.update sizes cid 0) = posCount K sizes - 1 := by
  unfold posCount
  have hset : (Finset.range K).filter (fun c => 0 < Function.update sizes cid 0 c) =
      ((Finset.range K).filter (fun c => 0 < sizes c)).erase cid := by
    ext c
    by_cases hcc : c = cid
    · subst hcc; simp [Function.update_same]
    · simp [Function.update_noteq hcc, hcc]
  rw [hset, Finset.card_erase_of_mem]
  exact Finset.mem_filter.mpr ⟨Finset.mem_range.mpr hc, hpos⟩

theorem posCount_witness {K : ℕ} {sizes : ℕ → ℕ} (h : 0 < posCount K sizes) :
    ∃ c, c < K ∧ 0 < sizes c := by
  unfold posCount at h
  obtain ⟨c, hc⟩ := Finset.card_pos.mp h
  have h2 := Finset.mem_filter.mp hc
  exact ⟨c, Finset.mem_range.mp h2.1, h2.2⟩

/-- The invariant of the TypiClust selection loop. uncov is any property of cluster
identifiers that (a) holds for every identifier of positive remaining size and (b)
forces every cluster-space position of such a cluster below len(mapping); the loop
then returns B pairwise distinct picks taken from mapping, each from a cluster
satisfying uncov, and utility row b is NaN exactly at the previously picked and
non-candidate columns. -/
theorem tcLoop_spec (dist : Fin n → Fin n → ℚ) (cl : ℕ → ℕ) (k : ℕ)
    (mapping : List (Fin n)) (m K : ℕ) (uncov : ℕ → Prop)
    (hd : ∀ i j, 0 ≤ dist i j) (hk : 1 ≤ k) (hmn : m ≤ n) (hnd : mapping.Nodup)
    (hexit : ∀ c, uncov c → ∀ s, s < m → cl s = c → s < mapping.length) :
    ∀ (B : ℕ) (sizes : ℕ → ℕ) (picked : List (Fin n)),
    (∀ c, c < K → sizes c = 0 ∨ sizes c = clusterCount cl m c) →
    (∀ c, c < K → 0 < sizes c → uncov c) →
    (∀ j ∈ picked, j ∈ mapping ∧ sizes (cl (mapping.indexOf j)) = 0) →
    B ≤ posCount K sizes →
    ∃ picks rows,
      tcLoop dist cl k mapping m K B sizes picked = some (picks, rows) ∧
      picks.length = B ∧ rows.length = B ∧ picks.Nodup ∧
      (∀ j ∈ picks, j ∉ picked) ∧
      (∀ j ∈ picks, j ∈ mapping ∧ mapping.indexOf j < mapping.length ∧
        uncov (cl (mapping.indexOf j))) ∧
      (∀ b r, rows[b]? = some r → ∀ j : Fin n,
        (r j = none ↔ (j ∈ picked ∨ j ∈ picks.take b ∨ j ∉ mapping))) := by
  intro B
  induction B with
  | zero =>
    intro sizes picked _ _ _ _
    exact ⟨[], [], rfl, rfl, rfl, List.nodup_nil, by simp, by simp, by simp⟩
  | succ B ih =>
    intro sizes picked hinv1 hinv2 hpicked hcnt
    obtain ⟨c0, hc0K, hc0pos⟩ := posCount_witness (lt_of_lt_of_le (Nat.succ_pos B) hcnt)
    have hK : 0 < K := lt_of_le_of_lt (Nat.zero_le c0) hc0K
    obtain ⟨cid, hcid⟩ := Option.isSome_iff_exists.mp
      (firstMaxL_isSome (range_map_ne_nil (f := sizes) hK))
    obtain ⟨hcidK, hcidmax⟩ := range_map_argmax hcid
    have hcidpos : 0 < sizes cid := lt_of_lt_of_le hc0pos (hcidmax c0 hc0K)
    have hcuncov : uncov cid := hinv2 cid hcidK hcidpos
    have hcount : sizes cid = clusterCount cl m cid := by
      rcases hinv1 cid hcidK with h | h
      · omega
      · exact h
    have hsub_pos : 0 < (tcSubset cl m cid).length := by
      unfold clusterCount at hcount
      omega
    obtain ⟨p0, hp0⟩ := List.exists_mem_of_ne_nil _ (List.length_pos.mp hsub_pos)
    obtain ⟨hp0m, _⟩ := tcSubset_mem hp0
    have hp0n : p0 < n := lt_of_lt_of_le hp0m hmn
    have hn : 0 < n := lt_of_le_of_lt (Nat.zero_le p0) hp0n
    have htp0 : 0 < typicality dist (tcSubset cl m cid) k p0 := typicality_pos hd hk hp0
    obtain ⟨slot, hslot⟩ := Option.isSome_iff_exists.mp (firstMaxL_isSome
      (range_map_ne_nil (f := typicality dist (tcSubset cl m cid) k) hn))
    obtain ⟨hslotn, hslotmax⟩ := range_map_argmax hslot
    have hts : 0 < typicality dist (tcSubset cl m cid) k slot :=
      lt_of_lt_of_le htp0 (hslotmax p0 hp0n)
    have hslot_mem : slot ∈ tcSubset cl m cid := by
      by_contra hnm
      rw [typicality_of_not_mem hnm] at hts
      exact lt_irrefl _ hts
    obtain ⟨hslotm, hslotcl⟩ := tcSubset_mem hslot_mem
    have hslotlt : slot < mapping.length := hexit cid hcuncov slot hslotm hslotcl
    have hj0 : mapping[slot]? = some (mapping.get ⟨slot, hslotlt⟩) :=
      List.getElem?_eq_getElem hslotlt
    have hj0mem : mapping.get ⟨slot, hslotlt⟩ ∈ mapping :=
      List.mem_iff_getElem.mpr ⟨slot, hslotlt, rfl⟩
    have hidx : mapping.indexOf (mapping.get ⟨slot, hslotlt⟩) = slot :=
      List.indexOf_getElem hnd slot hslotlt
    have hj0new : mapping.get ⟨slot, hslotlt⟩ ∉ picked := by
      intro hmem
      obtain ⟨_, hzero⟩ := hpicked _ hmem
      rw [hidx, hslotcl] at hzero
      omega
    have hinv1a : ∀ c, c < K →
        Function.update sizes cid 0 c = 0 ∨
        Function.update sizes cid 0 c = clusterCount cl m c := by
      intro c hc
      by_cases hcc : c = cid
      · subst hcc; left; rw [Function.update_same]
      · rw [Function.update_noteq hcc]; exact hinv1 c hc
    have hinv2a : ∀ c, c < K → 0 < Function.update sizes cid 0 c → uncov c := by
      intro c hc hpos
      by_cases hcc : c = cid
      · subst hcc; rw [Function.update_same] at hpos; omega
      · rw [Function.update_noteq hcc] at hpos; exact hinv2 c hc hpos
    have hpickeda : ∀ j ∈ picked ++ [mapping.get ⟨slot, hslotlt⟩], j ∈ mapping ∧
        Function.update sizes cid 0 (cl (mapping.indexOf j)) = 0 := by
      intro j hj
      rcases List.mem_append.mp hj with hj | hj
      · obtain ⟨hj1, hj2⟩ := hpicked j hj
        refine ⟨hj1, ?_⟩
        by_cases hcc : cl (mapping.indexOf j) = cid
        · rw [hcc, Function.update_same]
        · rw [Function.update_noteq hcc]; exact hj2
      · rw [List.mem_singleton] at hj
        subst hj
        refine ⟨hj0mem, ?_⟩
        rw [hidx, hslotcl, Function.update_same]
    have hcnta : B ≤ posCount K (Function.update sizes cid 0) := by
      rw [posCount_update hcidK hcidpos]
      omega
    obtain ⟨picks, rows, heq, hlen, hrlen, hndp, hnotin, hprops, hrows⟩ :=
      ih (Function.update sizes cid 0) (picked ++ [mapping.get ⟨slot, hslotlt⟩])
        hinv1a hinv2a hpickeda hcnta
    refine ⟨mapping.get ⟨slot, hslotlt⟩ :: picks,
      tcRow (typicality dist (tcSubset cl m cid) k) mapping picked :: rows,
      ?_, by simp [hlen], by simp [hrlen], ?_, ?_, ?_, ?_⟩
    · simp only [tcLoop, hcid, hslot, hj0, heq]
    · refine List.nodup_cons.mpr ⟨?_, hndp⟩
      intro hmem
      exact (hnotin _ hmem) (List.mem_append.mpr (Or.inr (List.mem_singleton.mpr rfl)))
    · intro j hj
      rcases List.mem_cons.mp hj with hj | hj
      · subst hj; exact hj0new
      · intro hmem
        exact (hnotin j hj) (List.mem_append.mpr (Or.inl hmem))
    · intro j hj
      rcases List.mem_cons.mp hj with hj | hj
      · subst hj
        refine ⟨hj0mem, ?_, ?_⟩
        · rw [hidx]; exact hslotlt
        · rw [hidx, hslotcl]; exact hcuncov
      · exact hprops j hj
    · intro b r hr j
      cases b with
      | zero =>
        simp only [List.getElem?_cons_zero, Option.some.injEq] at hr
        subst hr
        unfold tcRow
        by_cases h1 : j ∈ picked
        · simp [h1]
        · by_cases h2 : j ∈ mapping
          · simp [h1, h2]
          · simp [h1, h2]
      | succ b =>
        simp only [List.getElem?_cons_succ] at hr
        have hiff := hrows b r hr j
        rw [hiff]
        simp only [List.mem_append, List.take_succ_cons, List.mem_cons,
          List.not_mem_nil, or_false]
        rw [or_assoc, or_assoc]

/-! ### Query-level bookkeeping lemmas -/

theorem filter_split_length {α : Type} (l : List α) (p : α → Bool) :
    (l.filter p).length + (l.filter (fun a => ! p a)).length = l.length := by
  induction l with
  | nil => rfl
  | cons a t ih =>
    cases ha : p a <;> simp [List.filter_cons, ha] <;> omega

theorem finRange_map_getElem? {α : Type} {n : ℕ} (f : Fin n → α) (j : Fin n) :
    ((List.finRange n).map f)[j.val]? = some (f j) := by
  rw [List.getElem?_map, List.getElem?_eq_getElem (by simp)]
  simp

theorem mOf_eq (inp : TCInput n) :
    mOf inp = (mappingOf inp).length + (selectedOf inp).length := by
  unfold mOf csList
  exact List.length_append _ _

theorem mOf_le (inp : TCInput n)
    (hmap_lab : ∀ j ∈ mappingOf inp, inp.labeled j = false)
    (hmap_nd : (mappingOf inp).Nodup) : mOf inp ≤ n := by
  have hsub : mappingOf inp ⊆ (List.finRange n).filter (fun i => ! inp.labeled i) := by
    intro j hj
    exact List.mem_filter.mpr ⟨List.mem_finRange j, by simp [hmap_lab j hj]⟩
  have hle : (mappingOf inp).length ≤
      ((List.finRange n).filter (fun i => ! inp.labeled i)).length :=
    (hmap_nd.subperm hsub).length_le
  have hsplit := filter_split_length (List.finRange n) (fun i => inp.labeled i)
  have hfin : (List.finRange n).length = n := List.length_finRange n
  rw [mOf_eq]
  unfold selectedOf
  omega

theorem coveredB_true_of {inp : TCInput n} {s c : ℕ}
    (h1 : (mappingOf inp).length ≤ s) (h2 : s < mOf inp)
    (h3 : inp.clusterLabels s = c) : coveredB inp c = true := by
  unfold coveredB
  exact decide_eq_true ⟨s, List.mem_range.mpr h2, h1, h3⟩

theorem coveredB_elim {inp : TCInput n} {c : ℕ} (h : coveredB inp c = true) :
    ∃ s, s < mOf inp ∧ (mappingOf inp).length ≤ s ∧ inp.clusterLabels s = c := by
  unfold coveredB at h
  obtain ⟨s, hs, h1, h2⟩ := of_decide_eq_true h
  exact ⟨s, List.mem_range.mp hs, h1, h2⟩

theorem coveredB_of_coveredCluster {inp : TCInput n}
    (hmap_lab : ∀ j ∈ mappingOf inp, inp.labeled j = false) {c : ℕ}
    (h : coveredCluster inp c) : coveredB inp c = true := by
  obtain ⟨s, hsm, ⟨j, hj, hjl⟩, hcl⟩ := h
  by_cases hlt : s < (mappingOf inp).length
  · exfalso
    have hget : (csList inp)[s]? = (mappingOf inp)[s]? := by
      unfold csList
      rw [List.getElem?_append, if_pos hlt]
    rw [hget, List.getElem?_eq_getElem hlt] at hj
    have hjm : j ∈ mappingOf inp := by
      rw [← Option.some.inj hj]
      exact List.mem_iff_getElem.mpr ⟨s, hlt, rfl⟩
    rw [hmap_lab j hjm] at hjl
    exact Bool.false_ne_true hjl
  · exact coveredB_true_of (le_of_not_lt hlt) hsm hcl

theorem covered_card_le (inp : TCInput n) :
    ((Finset.range (KOf inp)).filter (fun c => coveredB inp c = true)).card ≤
      (selectedOf inp).length := by
  have hcard : (Finset.Ico (mappingOf inp).length (mOf inp)).card =
      (selectedOf inp).length := by
    rw [Nat.card_Ico, mOf_eq]
    omega
  rw [← hcard]
  apply Finset.card_le_card_of_injOn
    (fun c => if h : ∃ s, s < mOf inp ∧ (mappingOf inp).length ≤ s ∧
        inp.clusterLabels s = c then h.choose else 0)
  · intro c hc
    have hcov := (Finset.mem_filter.mp hc).2
    obtain ⟨s, h1, h2, h3⟩ := coveredB_elim hcov
    have hex : ∃ s, s < mOf inp ∧ (mappingOf inp).length ≤ s ∧
        inp.clusterLabels s = c := ⟨s, h1, h2, h3⟩
    rw [dif_pos hex]
    have hspec := hex.choose_spec
    exact Finset.mem_Ico.mpr ⟨hspec.2.1, hspec.1⟩
  · intro c1 h1 c2 h2 heq
    have hc1 := (Finset.mem_filter.mp (Finset.mem_coe.mp h1)).2
    have hc2 := (Finset.mem_filter.mp (Finset.mem_coe.mp h2)).2
    obtain ⟨s1, g1, g2, g3⟩ := coveredB_elim hc1
    obtain ⟨s2, f1, f2, f3⟩ := coveredB_elim hc2
    have he1 : ∃ s, s < mOf inp ∧ (mappingOf inp).length ≤ s ∧
        inp.clusterLabels s = c1 := ⟨s1, g1, g2, g3⟩
    have he2 : ∃ s, s < mOf inp ∧ (mappingOf inp).length ≤ s ∧
        inp.clusterLabels s = c2 := ⟨s2, f1, f2, f3⟩
    simp only [] at heq
    rw [dif_pos he1, dif_pos he2] at heq
    have k1 := he1.choose_spec
    have k2 := he2.choose_spec
    rw [← k1.2.2, ← k2.2.2, heq]

theorem uncov_card_ge (inp : TCInput n) :
    inp.batch ≤
      ((Finset.range (KOf inp)).filter (fun c => coveredB inp c = false)).card := by
  have hsplit : (((Finset.range (KOf inp)).filter
        (fun c => coveredB inp c = true)).card) +
      (((Finset.range (KOf inp)).filter
        (fun c => ¬ (coveredB inp c = true))).card) = KOf inp := by
    rw [Finset.filter_card_add_filter_neg_card_eq_card]
    exact Finset.card_range _
  have hcongr : (Finset.range (KOf inp)).filter (fun c => ¬ (coveredB inp c = true)) =
      (Finset.range (KOf inp)).filter (fun c => coveredB inp c = false) := by
    apply Finset.filter_congr
    intro c _
    simp
  rw [hcongr] at hsplit
  have hle := covered_card_le inp
  have hK : KOf inp = (selectedOf inp).length + inp.batch := rfl
  omega

theorem posCount_ge_uncov (inp : TCInput n)
    (hcl_surj : ∀ c ∈ List.range (KOf inp), ∃ s ∈ List.range (mOf inp),
      inp.clusterLabels s = c) :
    ((Finset.range (KOf inp)).filter (fun c => coveredB inp c = false)).card ≤
      posCount (KOf inp) (initSizes inp) := by
  unfold posCount
  apply Finset.card_le_card
  intro c hc
  obtain ⟨hcr, hcov⟩ := Finset.mem_filter.mp hc
  refine Finset.mem_filter.mpr ⟨hcr, ?_⟩
  unfold initSizes
  rw [if_neg (by simp [hcov])]
  obtain ⟨s, hsr, hscl⟩ := hcl_surj c (List.mem_range.mpr (Finset.mem_range.mp hcr))
  have hmem : s ∈ tcSubset inp.clusterLabels (mOf inp) c :=
    tcSubset_mem_of (List.mem_range.mp hsr) hscl
  unfold clusterCount
  exact List.length_pos.mpr (List.ne_nil_of_mem hmem)

/-- A successful ProbCover.query call: with valid alpha and deltas, a radius produced
for the instance, and at least batch_size candidates, the call returns batch_size
pairwise distinct unlabeled picks, caches the radius, and each utility row is NaN
exactly at the labeled and previously picked columns. -/
theorem ProbCover_query_run (inp : PCInput n) (cache : Option ℚ) {δ : ℚ}
    (ha : 0 < inp.alpha ∧ inp.alpha < 1)
    (hposd : inp.deltas.any (fun d => decide (d ≤ 0)) = false)
    (hδ : deltaMaxOf inp cache = some δ)
    (hB : inp.batch ≤ candCount (fun i => ! inp.labeled i)) :
    ∃ picks lrows,
      ProbCover.query inp cache = (some (picks, lrows), some δ) ∧
      picks.length = inp.batch ∧ picks.Nodup ∧
      (∀ j ∈ picks, inp.labeled j = false) ∧
      lrows.length = inp.batch ∧
      (∀ b r, lrows[b]? = some r → ∀ j : Fin n,
        (r[j.val]? = some ⊥ ↔ (inp.labeled j = true ∨ j ∈ picks.take b))) := by
  obtain ⟨picks, rows, heq, hlen, hrlen, hnd, hcand, hrows⟩ :=
    pcLoop_spec inp.batch inp.seed (fun i => ! inp.labeled i) (coverEdge inp.dist δ) hB
  refine ⟨picks, rows.map (fun r => (List.finRange n).map r), ?_, hlen, hnd, ?_,
    by simp [hrlen], ?_⟩
  · unfold ProbCover.query
    rw [if_neg (not_not_intro ha)]
    rw [if_neg (by rw [hposd]; exact Bool.false_ne_true)]
    simp only [hδ, heq]
  · intro j hj
    have := hcand j hj
    simpa using this
  · intro b r hr j
    rw [List.getElem?_map] at hr
    cases hrb : rows[b]? with
    | none => rw [hrb] at hr; exact absurd hr (by simp)
    | some r0 =>
      rw [hrb] at hr
      simp only [Option.map_some'] at hr
      rw [← Option.some.inj hr, finRange_map_getElem?]
      have hpat := hrows b r0 hrb j
      constructor
      · intro hsome
        rcases hpat.mp (Option.some.inj hsome) with hc | hc
        · left; simpa using hc
        · right; exact hc
      · intro hor
        have hbot : r0 j = ⊥ := by
          apply hpat.mpr
          rcases hor with hc | hc
          · left; simpa using hc
          · right; exact hc
        rw [hbot]

/-- A successful TypiClust.query call: for nonnegative distances, k at least 1, a Nodup
candidate mapping of unlabeled pool positions, a clustering covering every identifier,
and at least batch_size clusters of positive remaining size, the call returns
batch_size pairwise distinct picks, each a candidate from a cluster without labeled
points, and each utility row is NaN exactly at the labeled, previously picked, and
non-candidate columns. -/
theorem TypiClust_query_run (inp : TCInput n)
    (hd : ∀ i j, 0 ≤ inp.dist i j) (hk : 1 ≤ inp.k)
    (hmap_lab : ∀ j ∈ mappingOf inp, inp.labeled j = false)
    (hmap_nd : (mappingOf inp).Nodup)
    (hcnt : inp.batch ≤ posCount (KOf inp) (initSizes inp)) :
    ∃ picks lrows,
      TypiClust.query inp = some (picks, lrows) ∧
      picks.length = inp.batch ∧ picks.Nodup ∧
      (∀ j ∈ picks, j ∈ mappingOf inp ∧
        coveredB inp (inp.clusterLabels ((mappingOf inp).indexOf j)) = false) ∧
      lrows.length = inp.batch ∧
      (∀ b r, lrows[b]? = some r → ∀ j : Fin n,
        (r[j.val]? = some none ↔
          (inp.labeled j = true ∨ j ∈ picks.take b ∨ j ∉ mappingOf inp))) := by
  have huncov_exit : ∀ c, (coveredB inp c = false) → ∀ s, s < mOf inp →
      inp.clusterLabels s = c → s < (mappingOf inp).length := by
    intro c hc s hsm hscl
    by_contra hge
    rw [coveredB_true_of (le_of_not_lt hge) hsm hscl] at hc
    exact absurd hc (by simp)
  have hinv1 : ∀ c, c < KOf inp → initSizes inp c = 0 ∨
      initSizes inp c = clusterCount inp.clusterLabels (mOf inp) c := by
    intro c _
    unfold initSizes
    by_cases hcb : coveredB inp c = true
    · left; rw [if_pos hcb]
    · right; rw [if_neg hcb]
  have hinv2 : ∀ c, c < KOf inp → 0 < initSizes inp c → coveredB inp c = false := by
    intro c _ hpos
    unfold initSizes at hpos
    by_cases hcb : coveredB inp c = true
    · rw [if_pos hcb] at hpos; omega
    · exact Bool.not_eq_true _ ▸ hcb
  obtain ⟨picks, rows, heq, hlen, hrlen, hnd, _, hprops, hrows⟩ :=
    tcLoop_spec inp.dist inp.clusterLabels inp.k (mappingOf inp) (mOf inp) (KOf inp)
      (fun c => coveredB inp c = false) hd hk (mOf_le inp hmap_lab hmap_nd) hmap_nd
      huncov_exit inp.batch (initSizes inp) [] hinv1 hinv2 (by simp) hcnt
  refine ⟨picks, rows.map (fun r => (List.finRange n).map
      (fun j => if inp.labeled j then none else r j)), ?_, hlen, hnd, ?_,
    by simp [hrlen], ?_⟩
  · unfold TypiClust.query
    simp only [heq]
  · intro j hj
    obtain ⟨h1, _, h3⟩ := hprops j hj
    exact ⟨h1, h3⟩
  · intro b r hr j
    rw [List.getElem?_map] at hr
    cases hrb : rows[b]? with
    | none => rw [hrb] at hr; exact absurd hr (by simp)
    | some r0 =>
      rw [hrb] at hr
      simp only [Option.map_some'] at hr
      rw [← Option.some.inj hr, finRange_map_getElem?]
      have hpat := hrows b r0 hrb j
      by_cases hl : inp.labeled j = true
      · simp [hl]
      · rw [if_neg hl]
        simp only [Option.some.injEq]
        rw [hpat]
        simp [hl]

theorem deltaMaxOf_idem (inp : PCInput n) {cache : Option ℚ} {δ : ℚ}
    (h : deltaMaxOf inp cache = some δ) : deltaMaxOf inp (some δ) = some δ := by
  unfold deltaMaxOf at h ⊢
  by_cases hl : inp.deltas.length = 1
  · rw [if_pos hl] at h ⊢
    exact h
  · rw [if_neg hl]

theorem takeWhile_all {α : Type} {p : α → Bool} :
    ∀ {l : List α}, (∀ a ∈ l, p a = true) → l.takeWhile p = l := by
  intro l
  induction l with
  | nil => intro _; rfl
  | cons a t ih =>
    intro h
    rw [List.takeWhile_cons, h a (List.mem_cons_self a t), if_pos rfl,
      ih (fun b hb => h b (List.mem_cons_of_mem a hb))]

/-! ### The claims -/

/-- C4: during radius calibration the adjacency uses a strict comparison while the
selection graph uses an inclusive one, so a pair at distance exactly delta has no
calibration edge and has a selection edge. -/
theorem C4_boundary_asymmetry {n : ℕ} (dist : Fin n → Fin n → ℚ) (δ : ℚ) (i j : Fin n)
    (h : dist i j = δ) :
    calibEdge dist δ i j = false ∧ coverEdge dist δ i j = true := by
  unfold calibEdge coverEdge
  rw [h]
  simp

/-- Witness for C4 at a concrete input. -/
theorem C4_boundary_asymmetry_witness :
    exPC.dist 0 2 = 3 ∧
    (calibEdge exPC.dist 3 0 2 = false ∧ coverEdge exPC.dist 3 0 2 = true) :=
  ⟨by with_unfolding_all decide, C4_boundary_asymmetry exPC.dist 3 0 2 (by with_unfolding_all decide)⟩

/-- C2: on an uncalibrated instance with at least two radius candidates the delta_max_
attribute produced by ProbCover.query is the result of the recorded-best scan (the
last element of the longest prefix of candidates whose purity passes alpha), and when
no candidate ever fails, it is the largest candidate of the ascending list. -/
theorem C2_calibration_scan (inp : PCInput n)
    (ha : 0 < inp.alpha ∧ inp.alpha < 1)
    (hposd : inp.deltas.any (fun d => decide (d ≤ 0)) = false)
    (h2 : 2 ≤ inp.deltas.length) :
    (ProbCover.query inp none).2 =
      calibrateSpec inp.dist inp.yCluster inp.alpha inp.deltas ∧
    (inp.deltas.Sorted (· ≤ ·) →
      (∀ d ∈ inp.deltas, inp.alpha ≤ purity inp.dist inp.yCluster d) →
      ∃ δm, (ProbCover.query inp none).2 = some δm ∧ δm ∈ inp.deltas ∧
        ∀ d ∈ inp.deltas, d ≤ δm) := by
  have hdm_eq : deltaMaxOf inp none =
      calibrateSpec inp.dist inp.yCluster inp.alpha inp.deltas := by
    unfold deltaMaxOf calibrateSpec
    rw [if_neg (by omega), calibrate_eq]
    exact Option.or_none
  have hq2 : (ProbCover.query inp none).2 = deltaMaxOf inp none := by
    unfold ProbCover.query
    rw [if_neg (not_not_intro ha), if_neg (by rw [hposd]; exact Bool.false_ne_true)]
    cases hdm : deltaMaxOf inp none with
    | none => simp [hdm]
    | some δ =>
      cases hpl : pcLoop inp.seed (fun i => ! inp.labeled i)
          (coverEdge inp.dist δ) inp.batch with
      | none => simp [hdm, hpl]
      | some pr => simp [hdm, hpl]
  refine ⟨hq2.trans hdm_eq, ?_⟩
  intro hsort hall
  have hne : inp.deltas ≠ [] := by
    intro hc
    rw [hc] at h2
    simp at h2
  have hful : inp.deltas.takeWhile
      (fun δ => decide (inp.alpha ≤ purity inp.dist inp.yCluster δ)) = inp.deltas :=
    takeWhile_all (fun d hd => decide_eq_true (hall d hd))
  have hlast := List.getLast?_eq_getLast inp.deltas hne
  refine ⟨inp.deltas.getLast hne, ?_, ?_, ?_⟩
  · rw [hq2, hdm_eq]
    unfold calibrateSpec
    rw [hful]
    exact hlast
  · exact List.mem_of_mem_getLast? (Option.mem_def.mpr hlast)
  · exact sorted_le_getLast hsort hlast

/-- Witness for C2 at a concrete input. -/
theorem C2_calibration_scan_witness :
    ((0 < exPC2.alpha ∧ exPC2.alpha < 1) ∧
      exPC2.deltas.any (fun d => decide (d ≤ 0)) = false ∧
      2 ≤ exPC2.deltas.length) ∧
    ((ProbCover.query exPC2 none).2 =
      calibrateSpec exPC2.dist exPC2.yCluster exPC2.alpha exPC2.deltas ∧
    (exPC2.deltas.Sorted (· ≤ ·) →
      (∀ d ∈ exPC2.deltas, exPC2.alpha ≤ purity exPC2.dist exPC2.yCluster d) →
      ∃ δm, (ProbCover.query exPC2 none).2 = some δm ∧ δm ∈ exPC2.deltas ∧
        ∀ d ∈ exPC2.deltas, d ≤ δm)) :=
  ⟨⟨by with_unfolding_all decide, by with_unfolding_all decide, by with_unfolding_all decide⟩,
    C2_calibration_scan exPC2 (by with_unfolding_all decide) (by with_unfolding_all decide) (by with_unfolding_all decide)⟩

/-- C10: an uncalibrated instance with more than one radius candidate whose smallest
candidate already has purity below alpha raises (the loop breaks before delta_max_ is
assigned, and line 176 reads the nonexistent attribute): no selection and no utilities
are returned and no radius is cached. -/
theorem C10_break_before_assignment (inp : PCInput n) {δ0 : ℚ}
    (ha : 0 < inp.alpha ∧ inp.alpha < 1)
    (hposd : inp.deltas.any (fun d => decide (d ≤ 0)) = false)
    (h2 : 2 ≤ inp.deltas.length)
    (hhead : inp.deltas.head? = some δ0)
    (hfail : purity inp.dist inp.yCluster δ0 < inp.alpha) :
    ProbCover.query inp none = (none, none) := by
  have hdm : deltaMaxOf inp none = none := by
    unfold deltaMaxOf
    rw [if_neg (by omega)]
    show calibrate inp.dist inp.yCluster inp.alpha inp.deltas none = none
    cases hds : inp.deltas with
    | nil => rfl
    | cons d rest =>
      rw [hds] at hhead
      have hd0 : d = δ0 := by simpa using hhead
      rw [calibrate, if_pos (by rw [hd0]; exact hfail)]
  unfold ProbCover.query
  rw [if_neg (not_not_intro ha), if_neg (by rw [hposd]; exact Bool.false_ne_true)]
  simp [hdm]

/-- Witness for C10 at a concrete input. -/
theorem C10_break_before_assignment_witness :
    ((0 < exC1.alpha ∧ exC1.alpha < 1) ∧
      exC1.deltas.any (fun d => decide (d ≤ 0)) = false ∧
      2 ≤ exC1.deltas.length ∧
      exC1.deltas.head? = some 1 ∧
      purity exC1.dist exC1.yCluster 1 < exC1.alpha) ∧
    ProbCover.query exC1 none = (none, none) :=
  ⟨⟨by with_unfolding_all decide, by with_unfolding_all decide, by with_unfolding_all decide, by with_unfolding_all decide, by with_unfolding_all decide⟩,
    C10_break_before_assignment exC1 (by with_unfolding_all decide) (by with_unfolding_all decide) (by with_unfolding_all decide)
      ((by with_unfolding_all decide : exC1.deltas.head? = some 1)) (by with_unfolding_all decide)⟩

/-- C7: for a fixed ascending candidate list, pool, and pseudo-labels, the calibrated
radius is antitone in alpha: on fresh uncalibrated instances whose calibrations both
record a radius, the radius at the larger alpha is at most the radius at the smaller
alpha. -/
theorem C7_alpha_antitone {n : ℕ} (inp1 inp2 : PCInput n)
    (hdist : inp1.dist = inp2.dist) (hyc : inp1.yCluster = inp2.yCluster)
    (hdel : inp1.deltas = inp2.deltas)
    (hsort : inp1.deltas.Sorted (· ≤ ·)) (h12 : inp1.alpha ≤ inp2.alpha)
    {d1 d2 : ℚ}
    (h1 : deltaMaxOf inp1 none = some d1) (h2 : deltaMaxOf inp2 none = some d2) :
    d2 ≤ d1 := by
  unfold deltaMaxOf at h1 h2
  rw [← hdist, ← hyc, ← hdel] at h2
  by_cases hl : inp1.deltas.length = 1
  · rw [if_pos hl] at h1
    rw [if_pos hl] at h2
    rw [h1] at h2
    exact le_of_eq (Option.some.inj h2).symm
  · rw [if_neg hl] at h1
    rw [if_neg hl] at h2
    rw [calibrate_eq, Option.or_none] at h1 h2
    have hpref := takeWhile_imp_isPref
      (p := fun δ => decide (inp1.alpha ≤ purity inp1.dist inp1.yCluster δ))
      (q := fun δ => decide (inp2.alpha ≤ purity inp1.dist inp1.yCluster δ))
      (fun a ha => decide_eq_true (le_trans h12 (of_decide_eq_true ha)))
      inp1.deltas
    have hsorted1 : (inp1.deltas.takeWhile
        (fun δ => decide (inp1.alpha ≤ purity inp1.dist inp1.yCluster δ))).Sorted
          (· ≤ ·) :=
      List.Pairwise.sublist (List.takeWhile_sublist _) hsort
    exact getLast?_le_of_isPref hsorted1 hpref h2 h1

/-- Witness for C7 at a concrete input. -/
theorem C7_alpha_antitone_witness :
    (exPC2.dist = exPC2.dist ∧ exPC2.deltas.Sorted (· ≤ ·) ∧
      (1/2 : ℚ) ≤ (3/4 : ℚ) ∧
      deltaMaxOf exPC2 none = some 2 ∧
      deltaMaxOf { exPC2 with alpha := 3/4 } none = some 2) ∧
    (2 : ℚ) ≤ 2 :=
  ⟨⟨rfl, by with_unfolding_all decide, by with_unfolding_all decide, by with_unfolding_all decide, by with_unfolding_all decide⟩,
    C7_alpha_antitone exPC2 { exPC2 with alpha := 3/4 } rfl rfl rfl (by with_unfolding_all decide)
      (by with_unfolding_all decide) ((by with_unfolding_all decide : deltaMaxOf exPC2 none = some 2))
      ((by with_unfolding_all decide : deltaMaxOf { exPC2 with alpha := 3/4 } none = some 2))⟩

/-- C9: two calls of ProbCover.query on the same instance with identical inputs and
identical seed coincide: a successful call yields a state from which the repeated call
(now reusing the cached radius instead of re-calibrating) returns the same selected
indices, the same utility matrix and the same cached radius. -/
theorem C9_idempotent (inp : PCInput n) (cache : Option ℚ)
    {out : List (Fin n) × List (List (WithBot ℕ))} {cache2 : Option ℚ}
    (h : ProbCover.query inp cache = (some out, cache2)) :
    ProbCover.query inp cache2 = (some out, cache2) := by
  unfold ProbCover.query at h ⊢
  by_cases hv1 : ¬ (0 < inp.alpha ∧ inp.alpha < 1)
  · rw [if_pos hv1] at h
    exact absurd h (by simp)
  rw [if_neg hv1] at h ⊢
  by_cases hv2 : inp.deltas.any (fun d => decide (d ≤ 0)) = true
  · rw [if_pos hv2] at h
    exact absurd h (by simp)
  rw [if_neg hv2] at h ⊢
  cases hdm : deltaMaxOf inp cache with
  | none =>
    simp only [hdm] at h
    exact absurd h (by simp)
  | some δ =>
    simp only [hdm] at h
    cases hpl : pcLoop inp.seed (fun i => ! inp.labeled i)
        (coverEdge inp.dist δ) inp.batch with
    | none =>
      simp only [hpl] at h
      exact absurd h (by simp)
    | some pr =>
      obtain ⟨picks0, rows0⟩ := pr
      simp only [hpl, Prod.mk.injEq] at h
      obtain ⟨hout, hc2⟩ := h
      subst hc2
      rw [deltaMaxOf_idem inp hdm]
      simp only [hpl]
      rw [Prod.mk.injEq]
      exact ⟨hout, rfl⟩

/-- Witness for C9 at a concrete input. -/
theorem C9_idempotent_witness :
    ProbCover.query exPC none =
      (some ([0], [[(1 : WithBot ℕ), (1 : WithBot ℕ), ⊥]]), some 2) ∧
    ProbCover.query exPC (some 2) =
      (some ([0], [[(1 : WithBot ℕ), (1 : WithBot ℕ), ⊥]]), some 2) :=
  ⟨by with_unfolding_all decide,
    C9_idempotent exPC none ((by with_unfolding_all decide :
      ProbCover.query exPC none =
        (some ([0], [[(1 : WithBot ℕ), (1 : WithBot ℕ), ⊥]]), some 2)))⟩

/-- C1 fails as stated on the graph-coverage selector: exC1 satisfies every validity
condition of the claim (batch size one, three unlabeled candidates, pseudo-labels
covering both requested groups, positive deltas, alpha strictly inside (0, 1)), yet
ProbCover.query raises instead of returning a selection. -/
theorem C1_counterexample :
    1 ≤ exC1.batch ∧
    exC1.batch < candCount (fun i => ! exC1.labeled i) ∧
    (∀ c ∈ List.range 2, ∃ i : Fin 3, exC1.yCluster i = c) ∧
    (∀ d ∈ exC1.deltas, 0 < d) ∧
    0 < exC1.alpha ∧ exC1.alpha < 1 ∧
    (ProbCover.query exC1 none).1 = none := by
  with_unfolding_all decide

/-- C1 (amended): for every valid input of either selector — batch size at least one,
strictly more unlabeled candidates than batch size, a clustering oracle producing the
requested number of non-empty groups, and additionally, for the graph-coverage
selector, a calibrated radius being available (a single candidate, a cache, or a scan
recording at least one radius: without this the call raises, see the counterexample) —
the query returns exactly batch_size pairwise distinct indices, none of them an
already-labeled pool position. -/
theorem C1_amended {n1 n2 : ℕ} (pinp : PCInput n1) (cache : Option ℚ)
    (tinp : TCInput n2) {δ : ℚ}
    (_hpB : 1 ≤ pinp.batch)
    (hpa : 0 < pinp.alpha ∧ pinp.alpha < 1)
    (hppos : pinp.deltas.any (fun d => decide (d ≤ 0)) = false)
    (hpc : pinp.batch < candCount (fun i => ! pinp.labeled i))
    (hδ : deltaMaxOf pinp cache = some δ)
    (_htB : 1 ≤ tinp.batch)
    (htd : ∀ i j, 0 ≤ tinp.dist i j) (htk : 1 ≤ tinp.k)
    (hmap_lab : ∀ j ∈ mappingOf tinp, tinp.labeled j = false)
    (hmap_nd : (mappingOf tinp).Nodup)
    (_htc : tinp.batch < (mappingOf tinp).length)
    (_hcl_lt : ∀ s ∈ List.range (mOf tinp), tinp.clusterLabels s < KOf tinp)
    (hcl_surj : ∀ c ∈ List.range (KOf tinp), ∃ s ∈ List.range (mOf tinp),
      tinp.clusterLabels s = c) :
    (∃ picks lrows, ProbCover.query pinp cache = (some (picks, lrows), some δ) ∧
      picks.length = pinp.batch ∧ picks.Nodup ∧
      ∀ j ∈ picks, pinp.labeled j = false) ∧
    (∃ picks lrows, TypiClust.query tinp = some (picks, lrows) ∧
      picks.length = tinp.batch ∧ picks.Nodup ∧
      ∀ j ∈ picks, tinp.labeled j = false) := by
  constructor
  · obtain ⟨picks, lrows, h1, h2, h3, h4, _, _⟩ :=
      ProbCover_query_run pinp cache hpa hppos hδ (le_of_lt hpc)
    exact ⟨picks, lrows, h1, h2, h3, h4⟩
  · have hcnt : tinp.batch ≤ posCount (KOf tinp) (initSizes tinp) :=
      le_trans (uncov_card_ge tinp) (posCount_ge_uncov tinp hcl_surj)
    obtain ⟨picks, lrows, h1, h2, h3, h4, _, _⟩ :=
      TypiClust_query_run tinp htd htk hmap_lab hmap_nd hcnt
    refine ⟨picks, lrows, h1, h2, h3, ?_⟩
    intro j hj
    exact hmap_lab j (h4 j hj).1

/-- Witness for the amended C1 at concrete inputs of both selectors. -/
theorem C1_amended_witness :
    (1 ≤ exPC.batch ∧ (0 < exPC.alpha ∧ exPC.alpha < 1) ∧
      exPC.deltas.any (fun d => decide (d ≤ 0)) = false ∧
      exPC.batch < candCount (fun i => ! exPC.labeled i) ∧
      deltaMaxOf exPC none = some 2 ∧
      1 ≤ exTC.batch ∧ (∀ i j, 0 ≤ exTC.dist i j) ∧ 1 ≤ exTC.k ∧
      (∀ j ∈ mappingOf exTC, exTC.labeled j = false) ∧
      (mappingOf exTC).Nodup ∧
      exTC.batch < (mappingOf exTC).length ∧
      (∀ s ∈ List.range (mOf exTC), exTC.clusterLabels s < KOf exTC) ∧
      (∀ c ∈ List.range (KOf exTC), ∃ s ∈ List.range (mOf exTC),
        exTC.clusterLabels s = c)) ∧
    ((∃ picks lrows, ProbCover.query exPC none = (some (picks, lrows), some 2) ∧
      picks.length = exPC.batch ∧ picks.Nodup ∧
      ∀ j ∈ picks, exPC.labeled j = false) ∧
    (∃ picks lrows, TypiClust.query exTC = some (picks, lrows) ∧
      picks.length = exTC.batch ∧ picks.Nodup ∧
      ∀ j ∈ picks, exTC.labeled j = false)) :=
  ⟨by with_unfolding_all decide,
    C1_amended exPC none exTC (by with_unfolding_all decide)
      (by with_unfolding_all decide) (by with_unfolding_all decide)
      (by with_unfolding_all decide)
      ((by with_unfolding_all decide : deltaMaxOf exPC none = some 2))
      (by with_unfolding_all decide) (by with_unfolding_all decide)
      (by with_unfolding_all decide) (by with_unfolding_all decide)
      (by with_unfolding_all decide) (by with_unfolding_all decide)
      (by with_unfolding_all decide) (by with_unfolding_all decide)⟩

/-- C3 fails on the code: at ex3 the selection round chooses the cluster of the
candidate positions 0 and 1 (the pool points 10 and 11 at distance 1), but
_typicality indexes the pool array with those cluster-space positions and so measures
the pool points 0 and 10 at distance 10: the utility recorded for pool point 1 is
1/10, while the typicality the spec describes over the actual cluster members is 1. -/
theorem C3_typicality_wrong_points :
    TypiClust.query ex3 =
      some ([1], [[none, some ((1/10 : ℚ) : WithTop ℚ), some ((1/10 : ℚ) : WithTop ℚ)]]) ∧
    typicalitySpec ex3.dist [1, 2] ex3.k 1 = ((1 : ℚ) : WithTop ℚ) ∧
    ((1/10 : ℚ) : WithTop ℚ) ≠ ((1 : ℚ) : WithTop ℚ) := by
  with_unfolding_all decide

/-- C5 fails on the code: ProbCover.query computes the candidate mapping and discards
it (line 120), so at exC5, whose explicit candidate list is [0], the returned index is
the pool position 2 of maximal out-degree, not a member of the candidates. -/
theorem C5_explicit_candidates_ignored :
    exC5.candidates = some [0] ∧
    (ProbCover.query exC5 none).1 =
      some ([2], [[(1 : WithBot ℕ), 2, 3, 2]]) ∧
    (2 : Fin 4) ∉ [(0 : Fin 4)] := by
  with_unfolding_all decide

/-- C6: in every invocation of the cluster-typicality selector on valid inputs (with
at least batch_size identifiers of uncovered clusters), no returned index belongs to a
cluster containing an already-labeled point. -/
theorem C6_no_pick_from_covered_cluster (inp : TCInput n)
    (hd : ∀ i j, 0 ≤ inp.dist i j) (hk : 1 ≤ inp.k)
    (hmap_lab : ∀ j ∈ mappingOf inp, inp.labeled j = false)
    (hmap_nd : (mappingOf inp).Nodup)
    (_hcl_lt : ∀ s ∈ List.range (mOf inp), inp.clusterLabels s < KOf inp)
    (hcl_surj : ∀ c ∈ List.range (KOf inp), ∃ s ∈ List.range (mOf inp),
      inp.clusterLabels s = c)
    (hpre : inp.batch ≤
      ((Finset.range (KOf inp)).filter (fun c => coveredB inp c = false)).card) :
    ∀ picks lrows, TypiClust.query inp = some (picks, lrows) →
      ∀ j ∈ picks, ¬ coveredCluster inp
        (inp.clusterLabels ((mappingOf inp).indexOf j)) := by
  intro picks lrows hq j hj hcov
  have hcnt : inp.batch ≤ posCount (KOf inp) (initSizes inp) :=
    le_trans hpre (posCount_ge_uncov inp hcl_surj)
  obtain ⟨picks0, lrows0, h1, _, _, h4, _, _⟩ :=
    TypiClust_query_run inp hd hk hmap_lab hmap_nd hcnt
  rw [hq] at h1
  have hpe : picks = picks0 := congrArg Prod.fst (Option.some.inj h1)
  have hfalse := (h4 j (hpe ▸ hj)).2
  rw [coveredB_of_coveredCluster hmap_lab hcov] at hfalse
  exact absurd hfalse (by simp)

/-- Witness for C6 at a concrete input with one covered and one uncovered cluster. -/
theorem C6_no_pick_from_covered_cluster_witness :
    ((∀ i j, 0 ≤ ex3.dist i j) ∧ 1 ≤ ex3.k ∧
      (∀ j ∈ mappingOf ex3, ex3.labeled j = false) ∧
      (mappingOf ex3).Nodup ∧
      (∀ s ∈ List.range (mOf ex3), ex3.clusterLabels s < KOf ex3) ∧
      (∀ c ∈ List.range (KOf ex3), ∃ s ∈ List.range (mOf ex3),
        ex3.clusterLabels s = c) ∧
      ex3.batch ≤
        ((Finset.range (KOf ex3)).filter (fun c => coveredB ex3 c = false)).card) ∧
    (∀ picks lrows, TypiClust.query ex3 = some (picks, lrows) →
      ∀ j ∈ picks, ¬ coveredCluster ex3
        (ex3.clusterLabels ((mappingOf ex3).indexOf j))) :=
  ⟨by with_unfolding_all decide,
    C6_no_pick_from_covered_cluster ex3 (by with_unfolding_all decide)
      (by with_unfolding_all decide) (by with_unfolding_all decide)
      (by with_unfolding_all decide) (by with_unfolding_all decide)
      (by with_unfolding_all decide) (by with_unfolding_all decide)⟩

/-- C8 fails as stated: at ex8 (explicit candidate list [0], pool position 1 unlabeled
and never selected) the first utility row of the cluster-typicality selector holds the
undefined marker at column 1, though that column is neither an already-labeled pool
position nor one selected in an earlier round. -/
theorem C8_counterexample :
    TypiClust.query ex8 =
      some ([0], [[some ((1 : ℚ) : WithTop ℚ), none, none]]) ∧
    ex8.labeled 1 = false ∧
    (1 : Fin 3) ∉ ([(0 : Fin 3)]).take 0 := by
  with_unfolding_all decide

/-- C8 (amended): for either selector on valid inputs, a utility entry is NaN iff its
column is (a) an already-labeled pool position, (b) a position selected in a strictly
earlier round of the same call, or — for the cluster-typicality selector only — (c) a
pool position outside the candidate set (with candidates None, clause (c) is subsumed
by (a)); all other entries hold a numeric score. -/
theorem C8_amended {n1 n2 : ℕ} (pinp : PCInput n1) (cache : Option ℚ)
    (tinp : TCInput n2) {δ : ℚ}
    (hpa : 0 < pinp.alpha ∧ pinp.alpha < 1)
    (hppos : pinp.deltas.any (fun d => decide (d ≤ 0)) = false)
    (hδ : deltaMaxOf pinp cache = some δ)
    (hpc : pinp.batch ≤ candCount (fun i => ! pinp.labeled i))
    (htd : ∀ i j, 0 ≤ tinp.dist i j) (htk : 1 ≤ tinp.k)
    (hmap_lab : ∀ j ∈ mappingOf tinp, tinp.labeled j = false)
    (hmap_nd : (mappingOf tinp).Nodup)
    (hcl_surj : ∀ c ∈ List.range (KOf tinp), ∃ s ∈ List.range (mOf tinp),
      tinp.clusterLabels s = c) :
    (∀ picks lrows, ProbCover.query pinp cache = (some (picks, lrows), some δ) →
      ∀ b r, lrows[b]? = some r → ∀ j : Fin n1,
        (r[j.val]? = some ⊥ ↔ (pinp.labeled j = true ∨ j ∈ picks.take b))) ∧
    (∀ picks lrows, TypiClust.query tinp = some (picks, lrows) →
      ∀ b r, lrows[b]? = some r → ∀ j : Fin n2,
        (r[j.val]? = some none ↔
          (tinp.labeled j = true ∨ j ∈ picks.take b ∨ j ∉ mappingOf tinp))) := by
  constructor
  · intro picks lrows hq b r hr j
    obtain ⟨picks0, lrows0, h1, _, _, _, _, hrows⟩ :=
      ProbCover_query_run pinp cache hpa hppos hδ hpc
    rw [hq] at h1
    have h2 := congrArg Prod.fst h1
    have h3 := Option.some.inj h2
    have hp : picks = picks0 := congrArg Prod.fst h3
    have hl : lrows = lrows0 := congrArg Prod.snd h3
    subst hp
    subst hl
    exact hrows b r hr j
  · intro picks lrows hq b r hr j
    have hcnt := le_trans (uncov_card_ge tinp) (posCount_ge_uncov tinp hcl_surj)
    obtain ⟨picks0, lrows0, h1, _, _, _, _, hrows⟩ :=
      TypiClust_query_run tinp htd htk hmap_lab hmap_nd hcnt
    rw [hq] at h1
    have h3 := Option.some.inj h1
    have hp : picks = picks0 := congrArg Prod.fst h3
    have hl : lrows = lrows0 := congrArg Prod.snd h3
    subst hp
    subst hl
    exact hrows b r hr j

/-- Witness for the amended C8 at concrete inputs of both selectors. -/
theorem C8_amended_witness :
    ((0 < exPC.alpha ∧ exPC.alpha < 1) ∧
      exPC.deltas.any (fun d => decide (d ≤ 0)) = false ∧
      deltaMaxOf exPC none = some 2 ∧
      exPC.batch ≤ candCount (fun i => ! exPC.labeled i) ∧
      (∀ i j, 0 ≤ exTC.dist i j) ∧ 1 ≤ exTC.k ∧
      (∀ j ∈ mappingOf exTC, exTC.labeled j = false) ∧
      (mappingOf exTC).Nodup ∧
      (∀ c ∈ List.range (KOf exTC), ∃ s ∈ List.range (mOf exTC),
        exTC.clusterLabels s = c)) ∧
    ((∀ picks lrows, ProbCover.query exPC none = (some (picks, lrows), some 2) →
      ∀ b r, lrows[b]? = some r → ∀ j : Fin 3,
        (r[j.val]? = some ⊥ ↔ (exPC.labeled j = true ∨ j ∈ picks.take b))) ∧
    (∀ picks lrows, TypiClust.query exTC = some (picks, lrows) →
      ∀ b r, lrows[b]? = some r → ∀ j : Fin 3,
        (r[j.val]? = some none ↔
          (exTC.labeled j = true ∨ j ∈ picks.take b ∨ j ∉ mappingOf exTC)))) :=
  ⟨by with_unfolding_all decide,
    C8_amended exPC none exTC (by with_unfolding_all decide)
      (by with_unfolding_all decide)
      ((by with_unfolding_all decide : deltaMaxOf exPC none = some 2))
      (by with_unfolding_all decide) (by with_unfolding_all decide)
      (by with_unfolding_all decide) (by with_unfolding_all decide)
      (by with_unfolding_all decide) (by with_unfolding_all decide)⟩

end SkActiveML
